import Mathlib

/-!
Shallow embedding of the propositional-logic core of the repository
(`propositions/syntax.py` and `propositions/semantics.py`).

Strings are modelled as `List Char`.  The Python predicate
`str.isdecimal` is modelled exactly, by the table of Unicode
decimal-digit (category Nd) code points; `str.isalpha` is modelled on
the ASCII range (letters `a`-`z`/`A`-`Z`), which is behavior-neutral
for the parser contracts proved below since every token of the two
grammars is ASCII and a non-ASCII letter yields a parse error either
way.

Python dictionaries are modelled as association lists in insertion
order; where the code relies on key uniqueness the theorems carry a
`Nodup` hypothesis.  Fallible operations (`KeyError`, failed `assert`)
are modelled with `Option`.
-/

namespace PropCalc

abbrev Str := List Char

/-- Inclusive bounds of the non-ASCII Unicode decimal-digit (category Nd)
code-point ranges accepted by Python `str.isdecimal`. -/
def pyNonAsciiDecimalRanges : List (Nat × Nat) := [
  (0x660, 0x669), (0x6F0, 0x6F9), (0x7C0, 0x7C9), (0x966, 0x96F), (0x9E6, 0x9EF),
  (0xA66, 0xA6F), (0xAE6, 0xAEF), (0xB66, 0xB6F), (0xBE6, 0xBEF), (0xC66, 0xC6F),
  (0xCE6, 0xCEF), (0xD66, 0xD6F), (0xDE6, 0xDEF), (0xE50, 0xE59), (0xED0, 0xED9),
  (0xF20, 0xF29), (0x1040, 0x1049), (0x1090, 0x1099), (0x17E0, 0x17E9), (0x1810, 0x1819),
  (0x1946, 0x194F), (0x19D0, 0x19D9), (0x1A80, 0x1A89), (0x1A90, 0x1A99), (0x1B50, 0x1B59),
  (0x1BB0, 0x1BB9), (0x1C40, 0x1C49), (0x1C50, 0x1C59), (0xA620, 0xA629), (0xA8D0, 0xA8D9),
  (0xA900, 0xA909), (0xA9D0, 0xA9D9), (0xA9F0, 0xA9F9), (0xAA50, 0xAA59), (0xABF0, 0xABF9),
  (0xFF10, 0xFF19), (0x104A0, 0x104A9), (0x10D30, 0x10D39), (0x11066, 0x1106F), (0x110F0, 0x110F9),
  (0x11136, 0x1113F), (0x111D0, 0x111D9), (0x112F0, 0x112F9), (0x11450, 0x11459), (0x114D0, 0x114D9),
  (0x11650, 0x11659), (0x116C0, 0x116C9), (0x11730, 0x11739), (0x118E0, 0x118E9), (0x11950, 0x11959),
  (0x11C50, 0x11C59), (0x11D50, 0x11D59), (0x11DA0, 0x11DA9), (0x16A60, 0x16A69), (0x16AC0, 0x16AC9),
  (0x16B50, 0x16B59), (0x1D7CE, 0x1D7FF), (0x1E140, 0x1E149), (0x1E2F0, 0x1E2F9), (0x1E950, 0x1E959),
  (0x1FBF0, 0x1FBF9)]

/-- Python `str.isdecimal` applied to one character: a Unicode decimal digit
(category Nd), that is an ASCII digit `0`-`9` or a code point in one of the
non-ASCII decimal ranges. -/
def pyIsDecimalChar (c : Char) : Bool :=
  ('0' ≤ c && c ≤ '9') ||
    pyNonAsciiDecimalRanges.any (fun r => decide (r.1 ≤ c.toNat) && decide (c.toNat ≤ r.2))

/-- Python `s.isdecimal()`: nonempty and all characters decimal digits. -/
def pyIsDecimalStr (s : Str) : Bool := !s.isEmpty && s.all pyIsDecimalChar

/-- ASCII fragment of Python `str.isalpha` applied to one character. -/
def pyIsAlphaChar (c : Char) : Bool := ('a' ≤ c && c ≤ 'z') || ('A' ≤ c && c ≤ 'Z')

/-- Source `is_variable` (syntax.py lines 16-27): first character between `p` and `z`,
and either length one or a decimal-digit tail.  The source indexes `string[0]`,
so it is only ever applied to nonempty strings; `[]` is mapped to `false`. -/
def is_variable : Str → Bool
  | [] => false
  | c :: rest => ('p' ≤ c && c ≤ 'z') && (rest.isEmpty || pyIsDecimalStr rest)

/-- Source `is_constant` (syntax.py lines 30-40). -/
def is_constant (s : Str) : Bool := s == ['T'] || s == ['F']

/-- Source `is_unary` (syntax.py lines 43-53). -/
def is_unary (s : Str) : Bool := s == ['~']

/-- Source `is_binary` (syntax.py lines 56-68): the seven chapter-3 binary operators. -/
def is_binary (s : Str) : Bool :=
  s == ['&'] || s == ['|'] || s == ['-', '>'] || s == ['+'] ||
    s == ['<', '-', '>'] || s == ['-', '&'] || s == ['-', '|']

/-- The closed set of binary operator symbols of the `Formula` grammar. -/
inductive BinOp where
  | conj | disj | impl | xorOp | iffOp | nand | nor
deriving DecidableEq

/-- The concrete token of each binary operator. -/
def BinOp.tok : BinOp → Str
  | .conj => ['&']
  | .disj => ['|']
  | .impl => ['-', '>']
  | .xorOp => ['+']
  | .iffOp => ['<', '-', '>']
  | .nand => ['-', '&']
  | .nor => ['-', '|']

/-- The `Formula` tree (syntax.py class `Formula`): a variable name, a constant
(`T` is `true`, `F` is `false`), a negation, or a binary application. -/
inductive Formula where
  | var : Str → Formula
  | const : Bool → Formula
  | neg : Formula → Formula
  | bin : BinOp → Formula → Formula → Formula
deriving DecidableEq

/-- The constructor of `Formula` in the source asserts that variable roots are
legal variable names; this predicate captures that invariant. -/
def Formula.wf : Formula → Bool
  | .var v => is_variable v
  | .const _ => true
  | .neg f => f.wf
  | .bin _ f g => f.wf && g.wf

/-- Source `Formula.__repr__` (syntax.py lines 110-123): the standard infix string. -/
def Formula.repr : Formula → Str
  | .var v => v
  | .const b => [if b then 'T' else 'F']
  | .neg f => '~' :: f.repr
  | .bin op f g => '(' :: (f.repr ++ op.tok ++ g.repr ++ [')'])

/-- Source `Formula.variables` (syntax.py lines 152-168); the Python set is modelled
as a list, used only through membership. -/
def Formula.vars : Formula → List Str
  | .var v => [v]
  | .const _ => []
  | .neg f => f.vars
  | .bin _ f g => f.vars ++ g.vars

/-- The root token of a formula (the `root` attribute of the source class). -/
def Formula.rootTok : Formula → Str
  | .var v => v
  | .const b => if b then ['T'] else ['F']
  | .neg _ => ['~']
  | .bin op _ _ => op.tok

/-- Result of the low-level parsers: a formula with its unparsed suffix, or a
human-readable error message (the `(None, message)` shape of the source). -/
inductive ParseRes where
  | ok : Formula → Str → ParseRes
  | err : String → ParseRes
deriving DecidableEq

/-- The binary-operator scanning step of `Formula._parse_prefix`
(syntax.py lines 237-250): `->` first, then the 3-character, 2-character
and 1-character operators. -/
def scanBinOp (rest : Str) : Option (BinOp × Str) :=
  if rest.take 2 = ['-', '>'] then some (.impl, rest.drop 2)
  else if rest.take 3 = ['<', '-', '>'] then some (.iffOp, rest.drop 3)
  else if rest.take 2 = ['-', '&'] then some (.nand, rest.drop 2)
  else if rest.take 2 = ['-', '|'] then some (.nor, rest.drop 2)
  else if rest.take 1 = ['&'] then some (.conj, rest.drop 1)
  else if rest.take 1 = ['|'] then some (.disj, rest.drop 1)
  else if rest.take 1 = ['+'] then some (.xorOp, rest.drop 1)
  else none

/-- Source `Formula._parse_prefix` (syntax.py lines 189-260), written with explicit
fuel so that the recursion on returned suffixes is structural; the fuel always
exceeds the input length at the wrapper below, so the `out of fuel` branch is
unreachable there. -/
def parseStdAux : Nat → Str → ParseRes
  | 0, _ => .err "out of fuel"
  | _ + 1, [] => .err "unexpected end of input"
  | n + 1, c :: cs =>
    if c = 'T' then .ok (.const true) cs
    else if c = 'F' then .ok (.const false) cs
    else if pyIsAlphaChar c then
      if is_variable (c :: cs.takeWhile pyIsDecimalChar) then
        .ok (.var (c :: cs.takeWhile pyIsDecimalChar)) (cs.dropWhile pyIsDecimalChar)
      else .err ("invalid variable name: " ++ String.mk (c :: cs.takeWhile pyIsDecimalChar))
    else if c = '~' then
      match parseStdAux n cs with
      | .ok f rest => .ok (.neg f) rest
      | .err m => .err m
    else if c = '(' then
      match parseStdAux n cs with
      | .err m => .err m
      | .ok l rest =>
        match scanBinOp rest with
        | none => .err "expected binary operator"
        | some (op, rest2) =>
          match parseStdAux n rest2 with
          | .err m => .err m
          | .ok r rest3 =>
            if rest3.take 1 = [')'] then .ok (.bin op l r) (rest3.drop 1)
            else .err "expected closing parenthesis"
    else .err ("unexpected token: " ++ String.mk [c])

/-- Source `Formula._parse_prefix` on a whole string. -/
def parseStd (s : Str) : ParseRes := parseStdAux (s.length + 1) s

/-- Source `Formula.is_formula` (syntax.py lines 262-274). -/
def is_formula (s : Str) : Bool :=
  match parseStd s with
  | .ok _ rest => rest.isEmpty
  | .err _ => false

/-- Source `Formula.parse` (syntax.py lines 276-291); its `assert` (full success and
full consumption) is modelled by `Option`. -/
def parse (s : Str) : Option Formula :=
  match parseStd s with
  | .ok f [] => some f
  | _ => none

/-- Source `Formula.polish` (syntax.py lines 293-305). -/
def Formula.polish : Formula → Str
  | .var v => v
  | .const b => [if b then 'T' else 'F']
  | .neg f => '~' :: f.polish
  | .bin op f g => op.tok ++ (f.polish ++ g.polish)

/-- Source `Formula._parse_polish_prefix` (syntax.py lines 307-362).  Note that among
the binary operators the source handles only `->`, `&` and `|`. -/
def parsePolishAux : Nat → Str → ParseRes
  | 0, _ => .err "out of fuel"
  | _ + 1, [] => .err "unexpected end of input"
  | n + 1, '-' :: '>' :: rest =>
    (match parsePolishAux n rest with
     | .err m => .err m
     | .ok l rest2 =>
       match parsePolishAux n rest2 with
       | .err m => .err m
       | .ok r rest3 => .ok (.bin .impl l r) rest3)
  | n + 1, c :: cs =>
    if c = 'T' then .ok (.const true) cs
    else if c = 'F' then .ok (.const false) cs
    else if c = '~' then
      match parsePolishAux n cs with
      | .ok f rest => .ok (.neg f) rest
      | .err m => .err m
    else if c = '&' then
      match parsePolishAux n cs with
      | .err m => .err m
      | .ok l rest =>
        match parsePolishAux n rest with
        | .err m => .err m
        | .ok r rest2 => .ok (.bin .conj l r) rest2
    else if c = '|' then
      match parsePolishAux n cs with
      | .err m => .err m
      | .ok l rest =>
        match parsePolishAux n rest with
        | .err m => .err m
        | .ok r rest2 => .ok (.bin .disj l r) rest2
    else if pyIsAlphaChar c then
      let tok := c :: cs.takeWhile pyIsDecimalChar
      if is_variable tok then .ok (.var tok) (cs.dropWhile pyIsDecimalChar)
      else .err ("invalid variable name: " ++ String.mk tok)
    else .err ("unexpected token: " ++ String.mk [c])

/-- Source `Formula._parse_polish_prefix` on a whole string. -/
def parsePolish (s : Str) : ParseRes := parsePolishAux (s.length + 1) s

/-- Source `Formula.parse_polish` (syntax.py lines 364-376); its `assert` is modelled
by `Option`. -/
def parse_polish (s : Str) : Option Formula :=
  match parsePolish s with
  | .ok f [] => some f
  | _ => none

/-- Source `Formula.substitute_variables` (syntax.py lines 378-419).  The source
asserts that every key of the mapping is a variable name; theorems about this
definition carry that hypothesis. -/
def alookup {β : Type} : List (Str × β) → Str → Option β
  | [], _ => none
  | (k, x) :: rest, v => if k = v then some x else alookup rest v

def Formula.substitute_variables : Formula → List (Str × Formula) → Formula
  | .var v, map =>
    match alookup map v with
    | some g => g
    | none => .var v
  | .const b, _ => .const b
  | .neg f, map => .neg (f.substitute_variables map)
  | .bin op f g, map =>
    .bin op (f.substitute_variables map) (g.substitute_variables map)

/-- Source `Formula.substitute_operators` (syntax.py lines 421-474): children are
rewritten first; if the node's own root token is a key, the template is
instantiated by variable substitution of the markers `p` (first operand) and
`q` (second operand) with the rewritten children.  The source asserts that the
keys are constant/operator tokens and that templates only use `p` and `q`;
theorems about this definition carry those hypotheses. -/
def Formula.substitute_operators : Formula → List (Str × Formula) → Formula
  | .var v, _ => .var v
  | .const b, map =>
    match alookup map (if b then ['T'] else ['F']) with
    | some t => t.substitute_variables []
    | none => .const b
  | .neg f, map =>
    let nf := f.substitute_operators map
    match alookup map ['~'] with
    | some t => t.substitute_variables [(['p'], nf)]
    | none => .neg nf
  | .bin op f g, map =>
    let nf := f.substitute_operators map
    let ng := g.substitute_operators map
    match alookup map op.tok with
    | some t => t.substitute_variables [(['p'], nf), (['q'], ng)]
    | none => .bin op nf ng

/-- A model (semantics.py `Model`): a Python dict from variable names to truth
values, modelled as an association list in insertion order. -/
abbrev Model := List (Str × Bool)

/-- The truth table of each binary operator as used by `evaluate`
(semantics.py lines 81-101). -/
def binFun : BinOp → Bool → Bool → Bool
  | .conj, a, b => a && b
  | .disj, a, b => a || b
  | .impl, a, b => !a || b
  | .xorOp, a, b => a != b
  | .iffOp, a, b => a == b
  | .nand, a, b => !(a && b)
  | .nor, a, b => !(a || b)

/-- Source `evaluate` (semantics.py lines 49-103).  The source asserts that the model
covers the formula's variables and raises otherwise; a missing variable is
modelled as `none`.  Both operands of a binary node are evaluated, left before
right, as in the source. -/
def evaluate : Formula → Model → Option Bool
  | .var v, m => alookup m v
  | .const b, _ => some b
  | .neg f, m => (evaluate f m).map (fun a => !a)
  | .bin op f g, m =>
    match evaluate f m, evaluate g m with
    | some a, some b => some (binFun op a b)
    | _, _ => none

/-- The model built by `all_models` for one value of `mask`
(semantics.py lines 129-134): the entry of the variable at index `i` receives
bit `n - 1 - i` of `mask`, which for the head of a suffix is the length of the
remaining tail. -/
def model_of_mask : List Str → Nat → Model
  | [], _ => []
  | v :: vs, mask => (v, Nat.testBit mask vs.length) :: model_of_mask vs mask

/-- Source `all_models` (semantics.py lines 106-134); the generator is modelled as the
list of its yields. -/
def all_models (vars : List Str) : List Model :=
  (List.range (2 ^ vars.length)).map (model_of_mask vars)

/-- Source `truth_values` (semantics.py lines 137-154). -/
def truth_values (f : Formula) (models : List Model) : List (Option Bool) :=
  models.map (fun m => evaluate f m)

/-- Python string comparison `<` (lexicographic by code point), used by
`sorted`. -/
def pyStrLt : Str → Str → Bool
  | [], [] => false
  | [], _ :: _ => true
  | _ :: _, [] => false
  | a :: xs, b :: ys => if a = b then pyStrLt xs ys else decide (a < b)

def insertSorted (v : Str) : List Str → List Str
  | [] => [v]
  | w :: ws => if pyStrLt v w then v :: w :: ws else w :: insertSorted v ws

/-- Python `sorted` on a list of strings (insertion sort; the theorems below
use it only through membership and length). -/
def sortStrs : List Str → List Str
  | [] => []
  | v :: vs => insertSorted v (sortStrs vs)

/-- Python `model[v]`; a missing key raises `KeyError` in the source, and every
call site below queries only keys of `m`, so the default is never exercised. -/
def dictGet (m : Model) (v : Str) : Bool := (alookup m v).getD false

/-- The literal chosen by `_synthesize_for_model` (semantics.py lines 252-258). -/
def literal_for (m : Model) (v : Str) : Formula :=
  if dictGet m v then .var v else .neg (.var v)

/-- Source `_synthesize_for_model` (semantics.py lines 234-262).  The source asserts a
nonempty model; the `[]` branch is unreachable at the call sites. -/
def synthesize_for_model (m : Model) : Formula :=
  match sortStrs (m.map Prod.fst) with
  | [] => .const false
  | v0 :: rest =>
    rest.foldl (fun conj v => .bin .conj conj (literal_for m v)) (literal_for m v0)

/-- Source `synthesize` (semantics.py lines 265-306).  Its asserts (nonempty valid
variable list, value count `2 ^ n`) appear as hypotheses of the theorems; the
`[]` variable branch is unreachable under them. -/
def synthesize (vars : List Str) (values : List Bool) : Formula :=
  let models := all_models vars
  let true_models := ((models.zip values).filter (fun mv => mv.2)).map (fun mv => mv.1)
  match true_models with
  | [] =>
    match vars with
    | [] => .const false
    | p :: _ => .bin .conj (.var p) (.neg (.var p))
  | m0 :: rest =>
    rest.foldl (fun dnf m => .bin .disj dnf (synthesize_for_model m)) (synthesize_for_model m0)

/-- The literal chosen by `_synthesize_for_all_except_model`
(semantics.py lines 327-336): negated where the model is true. -/
def literal_except (m : Model) (v : Str) : Formula :=
  if dictGet m v then .neg (.var v) else .var v

/-- Source `_synthesize_for_all_except_model` (semantics.py lines 309-340). -/
def synthesize_for_all_except_model (m : Model) : Formula :=
  match sortStrs (m.map Prod.fst) with
  | [] => .const true
  | v0 :: rest =>
    rest.foldl (fun disj v => .bin .disj disj (literal_except m v)) (literal_except m v0)

/-- Source `synthesize_cnf` (semantics.py lines 343-382). -/
def synthesize_cnf (vars : List Str) (values : List Bool) : Formula :=
  let models := all_models vars
  let false_models := ((models.zip values).filter (fun mv => !mv.2)).map (fun mv => mv.1)
  match false_models with
  | [] =>
    match vars with
    | [] => .const false
    | p :: _ => .bin .disj (.var p) (.neg (.var p))
  | m0 :: rest =>
    rest.foldl (fun cnf m => .bin .conj cnf (synthesize_for_all_except_model m))
      (synthesize_for_all_except_model m0)



theorem modelOfMask_keys (vars : List Str) (k : Nat) :
    (model_of_mask vars k).map Prod.fst = vars := by
  induction vars with
  | nil => rfl
  | cons w vs ih => simp [model_of_mask, ih]

theorem modelOfMask_getElem (vars : List Str) (k i : Nat) (v : Str)
    (h : vars[i]? = some v) :
    (model_of_mask vars k)[i]? = some (v, Nat.testBit k (vars.length - 1 - i)) := by
  induction vars generalizing i with
  | nil => simp at h
  | cons w vs ih =>
    cases i with
    | zero => simp at h; simp [model_of_mask, h]
    | succ i =>
      simp only [List.getElem?_cons_succ] at h
      have h2 := ih i h
      simp only [model_of_mask, List.getElem?_cons_succ]
      have harg : (w :: vs).length - 1 - (i + 1) = vs.length - 1 - i := by
        simp only [List.length_cons]
        omega
      rw [h2, harg]

/-- C5: `all_models` yields exactly `2 ^ n` models, each an assignment over
exactly the given names in input order, enumerated as an n-bit binary counter
(false = 0, true = 1) whose most significant bit is the first name; zero names
yield one empty model, and the two-variable example is exact. -/
theorem c5_all_models_counter (vars : List Str)
    (hnd : vars.Nodup) (hvalid : ∀ v ∈ vars, is_variable v = true) :
    (all_models vars).length = 2 ^ vars.length ∧
    (∀ m ∈ all_models vars, m.map Prod.fst = vars) ∧
    (∀ k i v m, vars[i]? = some v → (all_models vars)[k]? = some m →
      m[i]? = some (v, Nat.testBit k (vars.length - 1 - i))) ∧
    all_models ([] : List Str) = [[]] ∧
    all_models [['p'], ['q']] =
      [[(['p'], false), (['q'], false)], [(['p'], false), (['q'], true)],
       [(['p'], true), (['q'], false)], [(['p'], true), (['q'], true)]] := by
  refine ⟨by simp [all_models], ?_, ?_, by decide, by decide⟩
  · intro m hm
    simp only [all_models, List.mem_map] at hm
    obtain ⟨mask, _, rfl⟩ := hm
    exact modelOfMask_keys vars mask
  · intro k i v m hv hm
    simp only [all_models, List.getElem?_map] at hm
    cases hr : (List.range (2 ^ vars.length))[k]? with
    | none => rw [hr] at hm; exact Option.noConfusion hm
    | some mask =>
      rw [hr] at hm
      simp at hm
      have : mask = k := by
        have := List.getElem?_range (n := 2 ^ vars.length) (m := k)
        by_cases hk : k < 2 ^ vars.length
        · rw [List.getElem?_range hk] at hr; exact (Option.some.inj hr).symm
        · rw [List.getElem?_eq_none (by simpa using Nat.le_of_not_lt hk)] at hr
          exact Option.noConfusion hr
      subst this
      rw [← hm]
      exact modelOfMask_getElem vars mask i v hv

theorem c5_witness :
    all_models [['p'], ['q']] =
      [[(['p'], false), (['q'], false)], [(['p'], false), (['q'], true)],
       [(['p'], true), (['q'], false)], [(['p'], true), (['q'], true)]] :=
  (c5_all_models_counter [['p'], ['q']] (by decide) (by decide)).2.2.2.2

/-- C1: for each of the seven binary operators `evaluate` returns the textbook
truth-table value of its operands (conjunction, disjunction, implication,
exclusive-or, bi-implication, NAND, NOR), negation inverts its operand,
the constants evaluate to true and false, and a variable evaluates to its
value in the model. -/
theorem c1_evaluate_truth_tables (m : Model) (f g : Formula) (v : Str) (a b : Bool)
    (hf : evaluate f m = some a) (hg : evaluate g m = some b) :
    evaluate (.bin .conj f g) m = some (a && b) ∧
    evaluate (.bin .disj f g) m = some (a || b) ∧
    evaluate (.bin .impl f g) m = some (!a || b) ∧
    evaluate (.bin .xorOp f g) m = some (a != b) ∧
    evaluate (.bin .iffOp f g) m = some (a == b) ∧
    evaluate (.bin .nand f g) m = some (!(a && b)) ∧
    evaluate (.bin .nor f g) m = some (!(a || b)) ∧
    evaluate (.neg f) m = some (!a) ∧
    evaluate (.const true) m = some true ∧
    evaluate (.const false) m = some false ∧
    (alookup m v = some a → evaluate (.var v) m = some a) := by
  refine ⟨?_, ?_, ?_, ?_, ?_, ?_, ?_, ?_, rfl, rfl, fun h => h⟩ <;>
    simp [evaluate, hf, hg, binFun]

theorem c1_witness :
    evaluate (.bin .nand (.const true) (.const true)) [] = some false :=
  (c1_evaluate_truth_tables [] (.const true) (.const true) ['p'] true true rfl rfl).2.2.2.2.2.1

/-- C10: `evaluate` depends only on the model's values at the formula's own
variables: two models that cover the formula's variable set and agree on it
give the same result, so extra bindings never change the outcome. -/
theorem c10_evaluate_depends_only_on_vars (f : Formula) (m1 m2 : Model)
    (h : ∀ v ∈ f.vars, ∃ b, alookup m1 v = some b ∧ alookup m2 v = some b) :
    evaluate f m1 = evaluate f m2 := by
  induction f with
  | var v =>
    obtain ⟨b, h1, h2⟩ := h v (by simp [Formula.vars])
    simp [evaluate, h1, h2]
  | const b => rfl
  | neg f ih =>
    simp only [evaluate]
    rw [ih (fun v hv => h v (by simpa [Formula.vars] using hv))]
  | bin op f g ihf ihg =>
    simp only [evaluate]
    rw [ihf (fun v hv => h v (by simp [Formula.vars, hv])),
      ihg (fun v hv => h v (by simp [Formula.vars, hv]))]

theorem c10_witness :
    evaluate (.var ['p']) [(['p'], true)] =
      evaluate (.var ['p']) [(['p'], true), (['q'], false)] :=
  c10_evaluate_depends_only_on_vars (.var ['p']) [(['p'], true)]
    [(['p'], true), (['q'], false)] (by decide)

/-- C3: the claim fails on the code: `polish` prints all seven binary
operators but `_parse_polish_prefix` recognises only `->`, `&` and `|`, so
re-parsing the Polish form of a formula using `+`, `<->`, `-&` or `-|` fails
(the assertion in `parse_polish` is violated, modelled as `none`), while the
three supported operators do round-trip. -/
theorem c3_polish_parser_gap :
    (Formula.bin .xorOp (.var ['p']) (.var ['q'])).polish = ['+', 'p', 'q'] ∧
    parse_polish ['+', 'p', 'q'] = none ∧
    parsePolish ['+', 'p', 'q'] = .err "unexpected token: +" ∧
    parse_polish ((Formula.bin .iffOp (.var ['p']) (.var ['q'])).polish) = none ∧
    parse_polish ((Formula.bin .nand (.var ['p']) (.var ['q'])).polish) = none ∧
    parse_polish ((Formula.bin .nor (.var ['p']) (.var ['q'])).polish) = none ∧
    parse_polish ((Formula.bin .impl (.var ['p']) (.var ['q'])).polish) =
      some (.bin .impl (.var ['p']) (.var ['q'])) ∧
    parse_polish ((Formula.bin .conj (.var ['p']) (.var ['q'])).polish) =
      some (.bin .conj (.var ['p']) (.var ['q'])) ∧
    parse_polish ((Formula.bin .disj (.var ['p']) (.var ['q'])).polish) =
      some (.bin .disj (.var ['p']) (.var ['q'])) := by
  decide

/-- C7: variable substitution is a single structural pass: a mapped variable
is replaced by its mapped formula verbatim (no substitution is reapplied
inside the replacement), constants are untouched, operator nodes are rebuilt
from their substituted children, and the worked example substitutes
p with (q&r) in (p|p) giving ((q&r)|(q&r)) although q is also a key. -/
theorem c7_substitute_variables_single_pass :
    (∀ map : List (Str × Formula), (∀ k ∈ map.map Prod.fst, is_variable k = true) →
      (∀ v g, alookup map v = some g → (Formula.var v).substitute_variables map = g) ∧
      (∀ b, (Formula.const b).substitute_variables map = .const b) ∧
      (∀ f, (Formula.neg f).substitute_variables map = .neg (f.substitute_variables map)) ∧
      (∀ op f g, (Formula.bin op f g).substitute_variables map =
        .bin op (f.substitute_variables map) (g.substitute_variables map))) ∧
    (Formula.bin .disj (.var ['p']) (.var ['p'])).substitute_variables
        [(['p'], .bin .conj (.var ['q']) (.var ['r'])),
         (['q'], .bin .disj (.var ['r']) (.var ['r']))] =
      .bin .disj (.bin .conj (.var ['q']) (.var ['r']))
        (.bin .conj (.var ['q']) (.var ['r'])) := by
  refine ⟨?_, by decide⟩
  intro map _
  refine ⟨?_, fun b => rfl, fun f => rfl, fun op f g => rfl⟩
  intro v g h
  simp [Formula.substitute_variables, h]

theorem c7_witness :
    (Formula.var ['p']).substitute_variables [(['p'], .const true)] = .const true :=
  (c7_substitute_variables_single_pass.1 [(['p'], .const true)] (by decide)).1
    ['p'] (.const true) rfl

/-- C8: operator substitution rewrites bottom-up: children first, then a node
whose root token is a mapping key instantiates the template by substituting
the marker p with the rewritten first operand and q with the rewritten second
operand, other nodes are rebuilt; the worked example rewrites ((x&y)&~z)
under the mapping of & to ~(~p|~q) into ~(~~(~x|~y)|~~z) exactly. -/
theorem c8_substitute_operators_bottom_up :
    (∀ map : List (Str × Formula),
      (∀ km ∈ map, (is_constant km.1 || is_unary km.1 || is_binary km.1) = true ∧
        ∀ v ∈ (km.2).vars, v = ['p'] ∨ v = ['q']) →
      (∀ op f g t, alookup map op.tok = some t →
        (Formula.bin op f g).substitute_operators map =
          t.substitute_variables
            [(['p'], f.substitute_operators map), (['q'], g.substitute_operators map)]) ∧
      (∀ op f g, alookup map op.tok = none →
        (Formula.bin op f g).substitute_operators map =
          .bin op (f.substitute_operators map) (g.substitute_operators map)) ∧
      (∀ f t, alookup map ['~'] = some t →
        (Formula.neg f).substitute_operators map =
          t.substitute_variables [(['p'], f.substitute_operators map)]) ∧
      (∀ v, (Formula.var v).substitute_operators map = .var v)) ∧
    (Formula.bin .conj (.bin .conj (.var ['x']) (.var ['y'])) (.neg (.var ['z']))).substitute_operators
        [(['&'], .neg (.bin .disj (.neg (.var ['p'])) (.neg (.var ['q']))))] =
      .neg (.bin .disj (.neg (.neg (.bin .disj (.neg (.var ['x'])) (.neg (.var ['y'])))))
        (.neg (.neg (.var ['z'])))) := by
  refine ⟨?_, by decide⟩
  intro map _
  refine ⟨?_, ?_, ?_, fun v => rfl⟩
  · intro op f g t h
    simp [Formula.substitute_operators, h]
  · intro op f g h
    simp [Formula.substitute_operators, h]
  · intro f t h
    simp [Formula.substitute_operators, h]

theorem c8_witness :
    (Formula.bin .conj (.var ['x']) (.var ['y'])).substitute_operators
        [(['&'], .neg (.bin .disj (.neg (.var ['p'])) (.neg (.var ['q']))))] =
      .neg (.bin .disj (.neg (.var ['x'])) (.neg (.var ['y']))) :=
  (c8_substitute_operators_bottom_up.1
      [(['&'], .neg (.bin .disj (.neg (.var ['p'])) (.neg (.var ['q']))))]
      (by decide)).1 .conj (.var ['x']) (.var ['y'])
    (.neg (.bin .disj (.neg (.var ['p'])) (.neg (.var ['q'])))) rfl



theorem dropWhile_length_le (p : Char → Bool) (l : Str) :
    (l.dropWhile p).length ≤ l.length := by
  induction l with
  | nil => simp
  | cons c cs ih =>
    by_cases h : p c <;> simp [List.dropWhile_cons, h] <;> omega

theorem takeWhile_app_dropWhile (p : Char → Bool) (l : Str) :
    l.takeWhile p ++ l.dropWhile p = l := by
  induction l with
  | nil => rfl
  | cons c cs ih =>
    by_cases h : p c <;> simp [List.takeWhile_cons, List.dropWhile_cons, h, ih]

theorem takeWhile_append_of_all (p : Char → Bool) (ds u : Str)
    (hall : ds.all p = true) :
    (ds ++ u).takeWhile p = ds ++ u.takeWhile p ∧
      (ds ++ u).dropWhile p = u.dropWhile p := by
  induction ds with
  | nil => exact ⟨rfl, rfl⟩
  | cons d ds ih =>
    simp only [List.all_cons, Bool.and_eq_true] at hall
    have := ih hall.2
    simp [List.takeWhile_cons, List.dropWhile_cons, hall.1, this.1, this.2]

theorem takeWhile_append_of_stop (p : Char → Bool) (cs u : Str)
    (h : cs.dropWhile p ≠ []) :
    (cs ++ u).takeWhile p = cs.takeWhile p ∧
      (cs ++ u).dropWhile p = cs.dropWhile p ++ u := by
  induction cs with
  | nil => simp at h
  | cons c cs ih =>
    by_cases hp : p c
    · have h2 : cs.dropWhile p ≠ [] := by
        simpa [List.dropWhile_cons, hp] using h
      have := ih h2
      simp [List.takeWhile_cons, List.dropWhile_cons, hp, this.1, this.2]
    · simp [List.takeWhile_cons, List.dropWhile_cons, hp]

theorem takeWhile_nonstop (p : Char → Bool) (ds u : Str)
    (hall : ds.all p = true) (hu : ∀ c cs, u = c :: cs → p c = false) :
    (ds ++ u).takeWhile p = ds ∧ (ds ++ u).dropWhile p = u := by
  have h1 := takeWhile_append_of_all p ds u hall
  have h2 : u.takeWhile p = [] ∧ u.dropWhile p = u := by
    cases u with
    | nil => exact ⟨rfl, rfl⟩
    | cons c cs => simp [List.takeWhile_cons, List.dropWhile_cons, hu c cs rfl]
  exact ⟨by rw [h1.1, h2.1, List.append_nil], by rw [h1.2, h2.2]⟩

theorem all_of_dropWhile_nil (p : Char → Bool) (l : Str)
    (h : l.dropWhile p = []) : l.all p = true := by
  induction l with
  | nil => rfl
  | cons c cs ih =>
    by_cases hp : p c
    · simp only [List.dropWhile_cons, hp, if_pos] at h
      simp [hp, ih h]
    · simp [List.dropWhile_cons, hp] at h

theorem all_takeWhile_self (p : Char → Bool) (l : Str) :
    (l.takeWhile p).all p = true := by
  induction l with
  | nil => rfl
  | cons c cs ih =>
    by_cases hp : p c <;> simp [List.takeWhile_cons, hp, ih]

theorem is_variable_cons_eq (c : Char) (ds : Str) :
    is_variable (c :: ds) = (('p' ≤ c && c ≤ 'z') && ds.all pyIsDecimalChar) := by
  cases ds with
  | nil => simp [is_variable]
  | cons d rest => simp [is_variable, pyIsDecimalStr]

theorem pyIsDecimalChar_ascii (d : Char) (hd : d.toNat < 128) :
    pyIsDecimalChar d = ('0' ≤ d && d ≤ '9') := by
  rw [pyIsDecimalChar]
  have h2 : pyNonAsciiDecimalRanges.any
      (fun r => decide (r.1 ≤ d.toNat) && decide (d.toNat ≤ r.2)) = false := by
    rw [← Bool.not_eq_true, List.any_eq_true]
    rintro ⟨r, hr, hd2⟩
    simp only [Bool.and_eq_true, decide_eq_true_eq] at hd2
    have hlo := (by decide : ∀ r ∈ pyNonAsciiDecimalRanges, 0x660 ≤ r.1) r hr
    omega
  rw [h2, Bool.or_false]

/-- C9 (amended): for nonempty strings, `is_variable` accepts exactly a first
character between `p` and `z` followed by a suffix of Python decimal digits
(Unicode category Nd); restricted to ASCII strings this is exactly the pattern
`[p-z][0-9]*`.  The original `[0-9]`-only reading over all strings fails on
the code for non-ASCII digits (see the counterexample below); the empty string
is outside the source's domain, since line 26 indexes `string[0]`. -/
theorem c9_is_variable_pattern (s : Str) (hne : s ≠ []) :
    (is_variable s = true ↔
      ∃ c ds, s = c :: ds ∧ 'p' ≤ c ∧ c ≤ 'z' ∧
        ∀ d ∈ ds, pyIsDecimalChar d = true) ∧
    ((∀ c ∈ s, c.toNat < 128) →
      (is_variable s = true ↔
        ∃ c ds, s = c :: ds ∧ 'p' ≤ c ∧ c ≤ 'z' ∧ ∀ d ∈ ds, '0' ≤ d ∧ d ≤ '9')) := by
  cases s with
  | nil => exact absurd rfl hne
  | cons c ds =>
    have hsimp := is_variable_cons_eq c ds
    constructor
    · rw [hsimp]
      simp only [Bool.and_eq_true, List.all_eq_true, decide_eq_true_eq]
      constructor
      · rintro ⟨⟨h1, h2⟩, h3⟩
        exact ⟨c, ds, rfl, h1, h2, h3⟩
      · rintro ⟨c2, ds2, heq, h1, h2, h3⟩
        injection heq with e1 e2
        subst e1; subst e2
        exact ⟨⟨h1, h2⟩, h3⟩
    · intro hascii
      rw [hsimp]
      simp only [Bool.and_eq_true, List.all_eq_true, decide_eq_true_eq]
      constructor
      · rintro ⟨⟨h1, h2⟩, h3⟩
        refine ⟨c, ds, rfl, h1, h2, ?_⟩
        intro d hd
        have h4 := h3 d hd
        rw [pyIsDecimalChar_ascii d (hascii d (by simp [hd]))] at h4
        simp only [Bool.and_eq_true, decide_eq_true_eq] at h4
        exact h4
      · rintro ⟨c2, ds2, heq, h1, h2, h3⟩
        injection heq with e1 e2
        subst e1; subst e2
        refine ⟨⟨h1, h2⟩, ?_⟩
        intro d hd
        rw [pyIsDecimalChar_ascii d (hascii d (by simp [hd]))]
        simp only [Bool.and_eq_true, decide_eq_true_eq]
        exact ⟨(h3 d hd).1, (h3 d hd).2⟩

/-- C9: counterexample to the claim as stated: Python `str.isdecimal` accepts
every Unicode decimal digit, so `is_variable` accepts the string of `p`
followed by U+0663 ARABIC-INDIC DIGIT THREE, although that string does not
match `[p-z][0-9]*`. -/
theorem c9_unicode_digit_counterexample :
    is_variable ['p', Char.ofNat 0x663] = true ∧
    ¬(∃ c ds, (['p', Char.ofNat 0x663] : Str) = c :: ds ∧ 'p' ≤ c ∧ c ≤ 'z' ∧
      ∀ d ∈ ds, '0' ≤ d ∧ d ≤ '9') := by
  constructor
  · decide
  · rintro ⟨c, ds, heq, _, _, h3⟩
    injection heq with e1 e2
    subst e1; subst e2
    have h4 := h3 (Char.ofNat 0x663) (by simp)
    exact absurd h4.2 (by decide)

theorem c9_witness :
    is_variable ['q', '7', '6'] = true ∧ is_variable ['a', '1'] = false := by
  constructor
  · exact ((c9_is_variable_pattern ['q', '7', '6'] (by decide)).2 (by decide)).mpr
      ⟨'q', ['7', '6'], rfl, by decide, by decide, by decide⟩
  · decide

theorem binop_head_not_digit (op : BinOp) (t : Str) (c : Char) (cs : Str)
    (h : op.tok ++ t = c :: cs) : pyIsDecimalChar c = false := by
  cases op <;>
    (simp only [BinOp.tok, List.cons_append] at h
     rw [← (List.cons.inj h).1]
     decide)

theorem scanBinOp_tok (op : BinOp) (rest : Str) :
    scanBinOp (op.tok ++ rest) = some (op, rest) := by
  cases op <;> rfl

theorem scanBinOp_eq (rest : Str) (op : BinOp) (rest2 : Str)
    (h : scanBinOp rest = some (op, rest2)) : rest = op.tok ++ rest2 := by
  unfold scanBinOp at h
  split_ifs at h with h1 h2 h3 h4 h5 h6 h7 <;>
    first
      | (obtain ⟨hop, hr⟩ := Prod.mk.injEq .. ▸ Option.some.inj h
         subst hop; subst hr
         first
           | (rw [BinOp.tok, ← h1]; exact (List.take_append_drop 2 rest).symm)
           | (rw [BinOp.tok, ← h2]; exact (List.take_append_drop 3 rest).symm)
           | (rw [BinOp.tok, ← h3]; exact (List.take_append_drop 2 rest).symm)
           | (rw [BinOp.tok, ← h4]; exact (List.take_append_drop 2 rest).symm)
           | (rw [BinOp.tok, ← h5]; exact (List.take_append_drop 1 rest).symm)
           | (rw [BinOp.tok, ← h6]; exact (List.take_append_drop 1 rest).symm)
           | (rw [BinOp.tok, ← h7]; exact (List.take_append_drop 1 rest).symm))
      | exact Option.noConfusion h

theorem parseStdAux_roundtrip (f : Formula) (hwf : f.wf = true) :
    ∀ (n : Nat) (rest : Str), (f.repr ++ rest).length < n →
      (∀ c cs, rest = c :: cs → pyIsDecimalChar c = false) →
      parseStdAux n (f.repr ++ rest) = .ok f rest := by
  induction f with
  | var v =>
    intro n rest hn hrest
    rw [Formula.wf] at hwf
    cases v with
    | nil => simp [is_variable] at hwf
    | cons c ds =>
      rw [is_variable_cons_eq] at hwf
      simp only [Bool.and_eq_true, decide_eq_true_eq] at hwf
      obtain ⟨⟨hp, hz⟩, hds⟩ := hwf
      obtain ⟨n2, rfl⟩ : ∃ n2, n = n2 + 1 := ⟨n - 1, by omega⟩
      have htw := takeWhile_nonstop pyIsDecimalChar ds rest hds hrest
      have hcT : ¬(c = 'T') := fun h => by subst h; exact absurd hp (by decide)
      have hcF : ¬(c = 'F') := fun h => by subst h; exact absurd hp (by decide)
      have hal : pyIsAlphaChar c = true := by
        simp only [pyIsAlphaChar, Bool.or_eq_true, Bool.and_eq_true, decide_eq_true_eq]
        exact .inl ⟨le_trans (by decide) hp, hz⟩
      have hvar : is_variable (c :: ds) = true := by
        rw [is_variable_cons_eq]
        simp [hp, hz, hds]
      have hstep : (Formula.var (c :: ds)).repr ++ rest = c :: (ds ++ rest) := by
        simp [Formula.repr]
      rw [hstep]
      simp [parseStdAux, List.append_eq, hcT, hcF, hal, htw.1, htw.2, hvar]
  | const b =>
    intro n rest hn hrest
    obtain ⟨n2, rfl⟩ : ∃ n2, n = n2 + 1 := ⟨n - 1, by omega⟩
    cases b <;> simp [Formula.repr, parseStdAux]
  | neg f ih =>
    intro n rest hn hrest
    obtain ⟨n2, rfl⟩ : ∃ n2, n = n2 + 1 := ⟨n - 1, by omega⟩
    rw [Formula.wf] at hwf
    have hrec := ih hwf n2 rest (by simp [Formula.repr] at hn ⊢; omega) hrest
    have hstep : (Formula.neg f).repr ++ rest = '~' :: (f.repr ++ rest) := by
      simp [Formula.repr]
    have e1 : ¬(('~' : Char) = 'T') := by decide
    have e2 : ¬(('~' : Char) = 'F') := by decide
    have e3 : pyIsAlphaChar '~' = false := by decide
    rw [hstep]
    simp [parseStdAux, List.append_eq, e1, e2, e3, hrec]
  | bin op l r ihl ihr =>
    intro n rest hn hrest
    obtain ⟨n2, rfl⟩ : ∃ n2, n = n2 + 1 := ⟨n - 1, by omega⟩
    rw [Formula.wf, Bool.and_eq_true] at hwf
    have htoklen : op.tok.length ≤ 3 := by cases op <;> simp [BinOp.tok]
    have hrecl := ihl hwf.1 n2 (op.tok ++ (r.repr ++ (')' :: rest)))
      (by simp [Formula.repr] at hn ⊢; omega)
      (fun c cs h => binop_head_not_digit op _ c cs h)
    have hrecr := ihr hwf.2 n2 (')' :: rest)
      (by simp [Formula.repr] at hn ⊢; omega)
      (by rintro c cs h; rw [← (List.cons.inj h).1]; decide)
    have hassoc : (Formula.bin op l r).repr ++ rest =
        '(' :: (l.repr ++ (op.tok ++ (r.repr ++ (')' :: rest)))) := by
      simp [Formula.repr]
    have e1 : ¬(('(' : Char) = 'T') := by decide
    have e2 : ¬(('(' : Char) = 'F') := by decide
    have e3 : pyIsAlphaChar '(' = false := by decide
    have e4 : ¬(('(' : Char) = '~') := by decide
    rw [hassoc]
    simp [parseStdAux, List.append_eq, e1, e2, e3, e4, hrecl, scanBinOp_tok, hrecr]

/-- C2: re-parsing the standard infix string of any well-formed formula
reproduces an identical tree: `parse (repr f) = some f`. -/
theorem c2_infix_roundtrip (f : Formula) (hwf : f.wf = true) :
    parse f.repr = some f := by
  have h := parseStdAux_roundtrip f hwf (f.repr.length + 1) []
    (by simp) (by rintro c cs ⟨⟩)
  rw [List.append_nil] at h
  rw [parse, parseStd, h]

theorem c2_witness :
    parse (Formula.bin .iffOp (.bin .nand (.var ['p', '1']) (.const true))
      (.neg (.var ['z']))).repr =
    some (Formula.bin .iffOp (.bin .nand (.var ['p', '1']) (.const true))
      (.neg (.var ['z']))) :=
  c2_infix_roundtrip _ (by decide)



theorem parseStdAux_rest_lt (n : Nat) :
    ∀ (s : Str) (f : Formula) (r : Str), parseStdAux n s = .ok f r →
      r.length < s.length := by
  induction n with
  | zero => intro s f r h; simp [parseStdAux] at h
  | succ n ih =>
    intro s f r h
    cases s with
    | nil => simp [parseStdAux] at h
    | cons c cs =>
      simp only [parseStdAux] at h
      split_ifs at h with hT hF hAl hv hNeg hPar
      · simp at h; obtain ⟨rfl, rfl⟩ := h; simp
      · simp at h; obtain ⟨rfl, rfl⟩ := h; simp
      · simp at h
        obtain ⟨rfl, rfl⟩ := h
        have := dropWhile_length_le pyIsDecimalChar cs
        simp
        omega
      · cases hrec : parseStdAux n cs with
        | err msg => simp only [hrec] at h; simp at h
        | ok f1 r1 =>
          simp only [hrec] at h; simp at h
          obtain ⟨rfl, rfl⟩ := h
          have := ih cs f1 r1 hrec
          simp
          omega
      · cases hrec1 : parseStdAux n cs with
        | err msg => simp only [hrec1] at h; simp at h
        | ok l r1 =>
          simp only [hrec1] at h
          cases hsc : scanBinOp r1 with
          | none => simp only [hsc] at h; simp at h
          | some pr =>
            obtain ⟨op, r2⟩ := pr
            simp only [hsc] at h
            cases hrec2 : parseStdAux n r2 with
            | err msg => simp only [hrec2] at h; simp at h
            | ok rt r3 =>
              simp only [hrec2] at h
              split_ifs at h with hcl
              · simp at h
                obtain ⟨rfl, rfl⟩ := h
                have d1 := ih cs l r1 hrec1
                have d2 := scanBinOp_eq r1 op r2 hsc
                have d3 := ih r2 rt r3 hrec2
                have d4 : r1.length = op.tok.length + r2.length := by
                  rw [d2]; simp
                have d5 : r3.tail.length = r3.length - 1 := by simp
                have d6 : (r3.drop 1).length = r3.length - 1 := by simp
                simp only [List.length_cons]
                omega

theorem parseStdAux_recon (n : Nat) :
    ∀ (s : Str) (f : Formula) (r : Str), parseStdAux n s = .ok f r →
      f.repr ++ r = s := by
  induction n with
  | zero => intro s f r h; simp [parseStdAux] at h
  | succ n ih =>
    intro s f r h
    cases s with
    | nil => simp [parseStdAux] at h
    | cons c cs =>
      simp only [parseStdAux] at h
      split_ifs at h with hT hF hAl hv hNeg hPar
      · simp at h; obtain ⟨rfl, rfl⟩ := h; simp [Formula.repr, hT]
      · simp at h; obtain ⟨rfl, rfl⟩ := h; simp [Formula.repr, hF]
      · simp at h
        obtain ⟨rfl, rfl⟩ := h
        simp [Formula.repr]
      · cases hrec : parseStdAux n cs with
        | err msg => simp only [hrec] at h; simp at h
        | ok f1 r1 =>
          simp only [hrec] at h; simp at h
          obtain ⟨rfl, rfl⟩ := h
          have e1 := ih cs f1 r1 hrec
          subst hNeg
          simp [Formula.repr, e1]
      · cases hrec1 : parseStdAux n cs with
        | err msg => simp only [hrec1] at h; simp at h
        | ok l r1 =>
          simp only [hrec1] at h
          cases hsc : scanBinOp r1 with
          | none => simp only [hsc] at h; simp at h
          | some pr =>
            obtain ⟨op, r2⟩ := pr
            simp only [hsc] at h
            cases hrec2 : parseStdAux n r2 with
            | err msg => simp only [hrec2] at h; simp at h
            | ok rt r3 =>
              simp only [hrec2] at h
              split_ifs at h with hcl
              · simp at h
                obtain ⟨rfl, rfl⟩ := h
                obtain ⟨r4, rfl⟩ : ∃ r4, r3 = ')' :: r4 := by
                  cases r3 with
                  | nil => simp at hcl
                  | cons a r4 =>
                    simp [List.take_succ_cons] at hcl
                    exact ⟨r4, by rw [hcl]⟩
                have e1 := ih cs l r1 hrec1
                have e2 := ih r2 rt (')' :: r4) hrec2
                have e3 := scanBinOp_eq r1 op r2 hsc
                subst hPar
                have hcs : cs = l.repr ++ (op.tok ++ (rt.repr ++ (')' :: r4))) := by
                  rw [← e1, e3, ← e2]
                rw [hcs]
                simp [Formula.repr, List.append_assoc]

theorem parseStdAux_ext (n : Nat) :
    ∀ (t u : Str) (f : Formula) (r : Str) (m : Nat),
      parseStdAux n t = .ok f r → (t ++ u).length < m →
      ∃ f2 r2, parseStdAux m (t ++ u) = .ok f2 r2 ∧
        r2.length ≤ r.length + u.length ∧ (r ≠ [] → f2 = f ∧ r2 = r ++ u) := by
  induction n with
  | zero => intro t u f r m h _; simp [parseStdAux] at h
  | succ n ih =>
    intro t u f r m h hm
    cases t with
    | nil => simp [parseStdAux] at h
    | cons c cs =>
      obtain ⟨m2, rfl⟩ : ∃ m2, m = m2 + 1 := ⟨m - 1, by omega⟩
      rw [List.cons_append]
      simp only [parseStdAux] at h ⊢
      split_ifs at h with hT hF hAl hv hNeg hPar
      · simp only [if_pos hT]
        simp at h
        obtain ⟨rfl, rfl⟩ := h
        exact ⟨.const true, cs ++ u, rfl, by simp, fun _ => ⟨rfl, rfl⟩⟩
      · simp only [if_neg hT, if_pos hF]
        simp at h
        obtain ⟨rfl, rfl⟩ := h
        exact ⟨.const false, cs ++ u, rfl, by simp, fun _ => ⟨rfl, rfl⟩⟩
      · simp only [if_neg hT, if_neg hF, if_pos hAl]
        simp at h
        obtain ⟨rfl, rfl⟩ := h
        by_cases hr : cs.dropWhile pyIsDecimalChar = []
        · have hall := all_of_dropWhile_nil pyIsDecimalChar cs hr
          have htw := takeWhile_append_of_all pyIsDecimalChar cs u hall
          have htkw : cs.takeWhile pyIsDecimalChar = cs := by
            have e := takeWhile_app_dropWhile pyIsDecimalChar cs
            rw [hr, List.append_nil] at e
            exact e
          rw [htkw] at hv
          have hvar2 : is_variable (c :: (cs ++ u.takeWhile pyIsDecimalChar)) = true := by
            rw [is_variable_cons_eq] at hv ⊢
            simp only [Bool.and_eq_true] at hv ⊢
            refine ⟨hv.1, ?_⟩
            simp [List.all_append, hv.2, all_takeWhile_self]
          rw [htw.1, htw.2, if_pos hvar2]
          refine ⟨_, _, rfl, ?_, fun hne => absurd hr hne⟩
          have := dropWhile_length_le pyIsDecimalChar u
          rw [hr]
          simp
          omega
        · have htw := takeWhile_append_of_stop pyIsDecimalChar cs u hr
          rw [htw.1, htw.2, if_pos hv]
          exact ⟨_, _, rfl, by simp, fun _ => ⟨rfl, rfl⟩⟩
      · simp only [if_neg hT, if_neg hF, if_neg hAl, if_pos hNeg]
        cases hrec : parseStdAux n cs with
        | err msg => simp only [hrec] at h; simp at h
        | ok f1 r1 =>
          simp only [hrec] at h; simp at h
          obtain ⟨rfl, rfl⟩ := h
          obtain ⟨f2, r2, hp, hlen, hcond⟩ :=
            ih cs u f1 r1 m2 hrec (by simp at hm ⊢; omega)
          simp only [hp]
          refine ⟨.neg f2, r2, rfl, hlen, fun hne => ?_⟩
          obtain ⟨rfl, rfl⟩ := hcond hne
          exact ⟨rfl, rfl⟩
      · simp only [if_neg hT, if_neg hF, if_neg hAl, if_neg hNeg, if_pos hPar]
        cases hrec1 : parseStdAux n cs with
        | err msg => simp only [hrec1] at h; simp at h
        | ok l r1 =>
          simp only [hrec1] at h
          cases hsc : scanBinOp r1 with
          | none => simp only [hsc] at h; simp at h
          | some pr =>
            obtain ⟨op, r2⟩ := pr
            simp only [hsc] at h
            cases hrec2 : parseStdAux n r2 with
            | err msg => simp only [hrec2] at h; simp at h
            | ok rt r3 =>
              simp only [hrec2] at h
              split_ifs at h with hcl
              · simp at h
                obtain ⟨rfl, rfl⟩ := h
                obtain ⟨r4, rfl⟩ : ∃ r4, r3 = ')' :: r4 := by
                  cases r3 with
                  | nil => simp at hcl
                  | cons a r4 =>
                    simp [List.take_succ_cons] at hcl
                    exact ⟨r4, by rw [hcl]⟩
                have hr1eq := scanBinOp_eq r1 op r2 hsc
                have hr1ne : r1 ≠ [] := by
                  rw [hr1eq]; cases op <;> simp [BinOp.tok]
                have hd1 := parseStdAux_rest_lt n cs l r1 hrec1
                obtain ⟨l2, r1b, hp1, hlen1, hc1⟩ :=
                  ih cs u l r1 m2 hrec1 (by simp at hm ⊢; omega)
                obtain ⟨rfl, rfl⟩ := hc1 hr1ne
                simp only [hp1]
                have hscu : scanBinOp (r1 ++ u) = some (op, r2 ++ u) := by
                  rw [hr1eq, List.append_assoc]
                  exact scanBinOp_tok op (r2 ++ u)
                simp only [hscu]
                have hd2 : r2.length ≤ r1.length := by rw [hr1eq]; simp
                obtain ⟨rt2, r3b, hp2, hlen2, hc2⟩ :=
                  ih r2 u rt (')' :: r4) m2 hrec2 (by simp at hm ⊢; omega)
                obtain ⟨rfl, rfl⟩ := hc2 (by simp)
                simp only [hp2]
                have htk : ((')' :: r4) ++ u).take 1 = [')'] := rfl
                rw [if_pos htk]
                refine ⟨_, _, rfl, by simp, fun _ => ⟨rfl, by simp⟩⟩

/-- C6: the low-level infix parser always returns either a parsed formula with
the exact unparsed suffix (the consumed prefix, the formula's standard string,
is the longest valid formula prefix of the input) or an error message, and
`is_formula` holds exactly when a formula is returned with an empty suffix. -/
theorem c6_parse_contract (s : Str) :
    ((∃ f r, parseStd s = .ok f r) ∨ (∃ msg, parseStd s = .err msg)) ∧
    (∀ f r, parseStd s = .ok f r → f.repr ++ r = s) ∧
    (∀ f r t u, parseStd s = .ok f r → t ++ u = s → is_formula t = true →
      t.length ≤ s.length - r.length) ∧
    (is_formula s = true ↔ ∃ f, parseStd s = .ok f []) := by
  refine ⟨?_, ?_, ?_, ?_⟩
  · cases h : parseStd s with
    | ok f r => exact .inl ⟨f, r, rfl⟩
    | err msg => exact .inr ⟨msg, rfl⟩
  · intro f r h
    exact parseStdAux_recon (s.length + 1) s f r h
  · intro f r t u h htu hform
    obtain ⟨g, hg⟩ : ∃ g, parseStd t = .ok g [] := by
      unfold is_formula at hform
      cases ht : parseStd t with
      | ok g r2 =>
        rw [ht] at hform
        simp at hform
        subst hform
        exact ⟨g, rfl⟩
      | err msg => rw [ht] at hform; simp at hform
    obtain ⟨f2, r2, hp, hlen, _⟩ :=
      parseStdAux_ext (t.length + 1) t u g [] (s.length + 1) hg
        (by rw [htu]; omega)
    rw [htu] at hp
    have hfr : f2 = f ∧ r2 = r := by
      rw [show parseStdAux (s.length + 1) s = parseStd s from rfl, h] at hp
      exact ⟨(ParseRes.ok.inj hp).1.symm, (ParseRes.ok.inj hp).2.symm⟩
    obtain ⟨rfl, rfl⟩ := hfr
    have hlens : t.length + u.length = s.length := by
      rw [← htu]; simp
    simp at hlen
    omega
  · unfold is_formula
    cases h : parseStd s with
    | ok f r =>
      constructor
      · intro hr
        have he : r = [] := List.isEmpty_iff.mp hr
        subst he
        exact ⟨f, rfl⟩
      · rintro ⟨f2, h2⟩
        have he : r = [] := (ParseRes.ok.inj h2).2
        subst he
        rfl
    | err msg =>
      constructor
      · intro hf; exact absurd hf (by simp)
      · rintro ⟨f2, h2⟩
        exact absurd h2 (by simp)

theorem c6_witness :
    (['(', 'p', '&', 'q', ')'] : Str).length ≤
      (['(', 'p', '&', 'q', ')', '|', 'r'] : Str).length - (['|', 'r'] : Str).length :=
  (c6_parse_contract ['(', 'p', '&', 'q', ')', '|', 'r']).2.2.1
    (.bin .conj (.var ['p']) (.var ['q'])) ['|', 'r']
    ['(', 'p', '&', 'q', ')'] ['|', 'r'] (by decide) (by decide) (by decide)



theorem insertSorted_mem (v w : Str) (l : List Str) :
    w ∈ insertSorted v l ↔ w = v ∨ w ∈ l := by
  induction l with
  | nil => simp [insertSorted]
  | cons x xs ih =>
    by_cases h : pyStrLt v x
    · simp [insertSorted, h]
    · simp [insertSorted, h, ih]
      tauto

theorem sortStrs_mem (v : Str) (l : List Str) : v ∈ sortStrs l ↔ v ∈ l := by
  induction l with
  | nil => simp [sortStrs]
  | cons x xs ih => simp [sortStrs, insertSorted_mem, ih]

theorem insertSorted_length (v : Str) (l : List Str) :
    (insertSorted v l).length = l.length + 1 := by
  induction l with
  | nil => rfl
  | cons x xs ih =>
    by_cases h : pyStrLt v x <;> simp [insertSorted, h, ih]

theorem sortStrs_length (l : List Str) : (sortStrs l).length = l.length := by
  induction l with
  | nil => rfl
  | cons x xs ih => simp [sortStrs, insertSorted_length, ih]

theorem sortStrs_all (p : Str → Bool) (l : List Str) :
    (sortStrs l).all p = l.all p := by
  by_cases h : ∀ v ∈ l, p v = true
  · rw [List.all_eq_true.mpr h, List.all_eq_true.mpr ?_]
    intro v hv
    exact h v ((sortStrs_mem v l).mp hv)
  · push_neg at h
    obtain ⟨v, hv, hvp⟩ := h
    have h1 : l.all p = false := by
      rw [← Bool.not_eq_true, List.all_eq_true]
      push_neg
      exact ⟨v, hv, hvp⟩
    have h2 : (sortStrs l).all p = false := by
      rw [← Bool.not_eq_true, List.all_eq_true]
      push_neg
      exact ⟨v, (sortStrs_mem v l).mpr hv, hvp⟩
    rw [h1, h2]

theorem alookup_isSome_of_mem (m : Model) (v : Str)
    (h : v ∈ m.map Prod.fst) : ∃ b, alookup m v = some b := by
  induction m with
  | nil => simp at h
  | cons kb rest ih =>
    obtain ⟨kk, bb⟩ := kb
    by_cases he : kk = v
    · exact ⟨bb, by simp [alookup, he]⟩
    · simp only [List.map_cons, List.mem_cons] at h
      rcases h with h | h
      · exact absurd h.symm he
      · obtain ⟨b, hb⟩ := ih h
        exact ⟨b, by simp [alookup, he, hb]⟩

theorem alookup_model_of_mask (vars : List Str) (hnd : vars.Nodup)
    (i : Nat) (hi : i < vars.length) (k : Nat) :
    alookup (model_of_mask vars k) (vars.get ⟨i, hi⟩) =
      some (Nat.testBit k (vars.length - 1 - i)) := by
  induction vars generalizing i with
  | nil => simp at hi
  | cons w vs ih =>
    cases i with
    | zero =>
      simp only [List.get, model_of_mask, alookup, if_pos rfl]
      simp
    | succ i =>
      have hi2 : i < vs.length := by simpa using hi
      have hw : ¬(w = vs.get ⟨i, hi2⟩) := by
        intro he
        rw [List.nodup_cons] at hnd
        exact hnd.1 (he ▸ List.get_mem vs i hi2)
      simp only [List.get, model_of_mask, alookup, if_neg hw]
      have := ih hnd.of_cons i hi2
      rw [this]
      have harg : vs.length - 1 - i = (w :: vs).length - 1 - (i + 1) := by
        simp only [List.length_cons]
        omega
      rw [harg]

theorem dictGet_model_of_mask (vars : List Str) (hnd : vars.Nodup)
    (i : Nat) (hi : i < vars.length) (k : Nat) :
    dictGet (model_of_mask vars k) (vars.get ⟨i, hi⟩) =
      Nat.testBit k (vars.length - 1 - i) := by
  rw [dictGet, alookup_model_of_mask vars hnd i hi k]
  rfl

theorem evaluate_literal_for (m mk : Model) (v : Str) :
    evaluate (literal_for m v) mk =
      (alookup mk v).map (fun b => b == dictGet m v) := by
  rw [literal_for]
  by_cases h : dictGet m v
  · rw [if_pos h, h]
    cases hl : alookup mk v <;> simp [evaluate, hl]
  · rw [if_neg h, Bool.not_eq_true] at *
    rw [h]
    cases hl : alookup mk v <;> simp [evaluate, hl]

theorem evaluate_literal_except (m mk : Model) (v : Str) :
    evaluate (literal_except m v) mk =
      (alookup mk v).map (fun b => b != dictGet m v) := by
  rw [literal_except]
  by_cases h : dictGet m v
  · rw [if_pos h, h]
    cases hl : alookup mk v <;> simp [evaluate, hl]
  · rw [if_neg h, Bool.not_eq_true] at *
    rw [h]
    cases hl : alookup mk v <;> simp [evaluate, hl]

theorem evaluate_foldl_bin {α : Type} (op : BinOp) (form : α → Formula)
    (val : α → Bool) (mk : Model) (xs : List α)
    (hxs : ∀ x ∈ xs, evaluate (form x) mk = some (val x)) :
    ∀ (acc : Formula) (a0 : Bool), evaluate acc mk = some a0 →
      evaluate (xs.foldl (fun acc x => .bin op acc (form x)) acc) mk =
        some (xs.foldl (fun a x => binFun op a (val x)) a0) := by
  induction xs with
  | nil => intro acc a0 hacc; simpa using hacc
  | cons x xs ih =>
    intro acc a0 hacc
    simp only [List.foldl_cons]
    refine ih (fun y hy => hxs y (by simp [hy])) _ _ ?_
    simp only [evaluate, hacc, hxs x (by simp)]

theorem foldl_and_all (p : α → Bool) (xs : List α) :
    ∀ a0 : Bool, xs.foldl (fun a x => a && p x) a0 = (a0 && xs.all p) := by
  induction xs with
  | nil => intro a0; simp
  | cons x xs ih =>
    intro a0
    simp only [List.foldl_cons, List.all_cons, ih, Bool.and_assoc]

theorem foldl_or_any (p : α → Bool) (xs : List α) :
    ∀ a0 : Bool, xs.foldl (fun a x => a || p x) a0 = (a0 || xs.any p) := by
  induction xs with
  | nil => intro a0; simp
  | cons x xs ih =>
    intro a0
    simp only [List.foldl_cons, List.any_cons, ih, Bool.or_assoc]

theorem any_bne_eq_not_all_beq (f g : α → Bool) (l : List α) :
    l.any (fun x => f x != g x) = !(l.all (fun x => f x == g x)) := by
  induction l with
  | nil => rfl
  | cons x xs ih =>
    simp only [List.any_cons, List.all_cons, ih, Bool.not_and]
    rfl



theorem sortStrs_any (p : Str → Bool) (l : List Str) :
    (sortStrs l).any p = l.any p := by
  by_cases h : ∃ v ∈ l, p v = true
  · obtain ⟨v, hv, hvp⟩ := h
    rw [List.any_eq_true.mpr ⟨v, hv, hvp⟩,
      List.any_eq_true.mpr ⟨v, (sortStrs_mem v l).mpr hv, hvp⟩]
  · have h1 : l.any p = false := by
      rw [← Bool.not_eq_true, List.any_eq_true]
      exact h
    have h2 : (sortStrs l).any p = false := by
      rw [← Bool.not_eq_true, List.any_eq_true]
      intro ⟨v, hv, hvp⟩
      exact h ⟨v, (sortStrs_mem v l).mp hv, hvp⟩
    rw [h1, h2]

theorem evaluate_synthesize_for_model (m mk : Model)
    (hne : m.map Prod.fst ≠ [])
    (hcov : ∀ v ∈ m.map Prod.fst, ∃ b, alookup mk v = some b) :
    evaluate (synthesize_for_model m) mk =
      some ((m.map Prod.fst).all (fun v => dictGet mk v == dictGet m v)) := by
  rw [synthesize_for_model]
  cases hs : sortStrs (m.map Prod.fst) with
  | nil =>
    exfalso
    apply hne
    have hl := sortStrs_length (m.map Prod.fst)
    rw [hs] at hl
    exact List.length_eq_zero.mp hl.symm
  | cons v0 rest =>
    have hval : ∀ v ∈ v0 :: rest,
        evaluate (literal_for m v) mk = some (dictGet mk v == dictGet m v) := by
      intro v hv
      have hvm : v ∈ m.map Prod.fst := (sortStrs_mem v _).mp (hs ▸ hv)
      obtain ⟨b, hb⟩ := hcov v hvm
      rw [evaluate_literal_for, hb]
      simp [dictGet, hb]
    rw [evaluate_foldl_bin .conj (literal_for m)
      (fun v => dictGet mk v == dictGet m v) mk rest
      (fun x hx => hval x (by simp [hx])) (literal_for m v0) _ (hval v0 (by simp))]
    simp only [binFun]
    rw [foldl_and_all]
    have hstep : (dictGet mk v0 == dictGet m v0 &&
        rest.all fun x => dictGet mk x == dictGet m x) =
        ((v0 :: rest).all fun x => dictGet mk x == dictGet m x) := by
      rw [List.all_cons]
    rw [hstep, ← hs, sortStrs_all]

theorem evaluate_synthesize_for_all_except (m mk : Model)
    (hne : m.map Prod.fst ≠ [])
    (hcov : ∀ v ∈ m.map Prod.fst, ∃ b, alookup mk v = some b) :
    evaluate (synthesize_for_all_except_model m) mk =
      some (!((m.map Prod.fst).all (fun v => dictGet mk v == dictGet m v))) := by
  rw [synthesize_for_all_except_model]
  cases hs : sortStrs (m.map Prod.fst) with
  | nil =>
    exfalso
    apply hne
    have hl := sortStrs_length (m.map Prod.fst)
    rw [hs] at hl
    exact List.length_eq_zero.mp hl.symm
  | cons v0 rest =>
    have hval : ∀ v ∈ v0 :: rest,
        evaluate (literal_except m v) mk = some (dictGet mk v != dictGet m v) := by
      intro v hv
      have hvm : v ∈ m.map Prod.fst := (sortStrs_mem v _).mp (hs ▸ hv)
      obtain ⟨b, hb⟩ := hcov v hvm
      rw [evaluate_literal_except, hb]
      simp [dictGet, hb]
    rw [evaluate_foldl_bin .disj (literal_except m)
      (fun v => dictGet mk v != dictGet m v) mk rest
      (fun x hx => hval x (by simp [hx])) (literal_except m v0) _ (hval v0 (by simp))]
    simp only [binFun]
    rw [foldl_or_any]
    have hstep : (dictGet mk v0 != dictGet m v0 ||
        rest.any fun x => dictGet mk x != dictGet m x) =
        ((v0 :: rest).any fun x => dictGet mk x != dictGet m x) := by
      rw [List.any_cons]
    rw [hstep, ← hs, sortStrs_any, any_bne_eq_not_all_beq]

theorem testBit_inj_of_lt (n j k : Nat) (hj : j < 2 ^ n) (hk : k < 2 ^ n)
    (h : ∀ p, p < n → j.testBit p = k.testBit p) : j = k := by
  apply Nat.eq_of_testBit_eq
  intro p
  by_cases hp : p < n
  · exact h p hp
  · have h2 : 2 ^ n ≤ 2 ^ p := Nat.pow_le_pow_right (by omega) (by omega)
    rw [Nat.testBit_eq_false_of_lt (by omega), Nat.testBit_eq_false_of_lt (by omega)]

theorem all_get_iff (l : List Str) (p : Str → Bool) :
    l.all p = true ↔ ∀ i : Fin l.length, p (l.get i) = true := by
  rw [List.all_eq_true]
  constructor
  · intro h i
    exact h _ (List.get_mem l i.1 i.2)
  · intro h v hv
    obtain ⟨i, rfl⟩ := List.mem_iff_get.mp hv
    exact h i

theorem all_match_eq_decide (vars : List Str) (hnd : vars.Nodup) (hne : vars ≠ [])
    (j k : Nat) (hj : j < 2 ^ vars.length) (hk : k < 2 ^ vars.length) :
    vars.all (fun v =>
        dictGet (model_of_mask vars k) v == dictGet (model_of_mask vars j) v) =
      decide (j = k) := by
  have hl0 : vars.length ≠ 0 := fun h => hne (List.length_eq_zero.mp h)
  by_cases hjk : j = k
  · subst hjk
    rw [decide_eq_true rfl, List.all_eq_true]
    intro v _
    simp
  · rw [decide_eq_false hjk, Bool.eq_false_iff]
    intro hall
    rw [all_get_iff] at hall
    have hbit : ¬(∀ p, p < vars.length → j.testBit p = k.testBit p) := by
      intro hb
      exact hjk (testBit_inj_of_lt vars.length j k hj hk hb)
    push_neg at hbit
    obtain ⟨p, hp, hne2⟩ := hbit
    have hi : vars.length - 1 - p < vars.length := by omega
    have := hall ⟨vars.length - 1 - p, hi⟩
    rw [dictGet_model_of_mask vars hnd _ hi k,
      dictGet_model_of_mask vars hnd _ hi j] at this
    have harg : vars.length - 1 - (vars.length - 1 - p) = p := by omega
    rw [harg] at this
    rw [beq_iff_eq] at this
    exact hne2 this.symm

theorem clause_eval_mask (vars : List Str) (hnd : vars.Nodup) (hne : vars ≠ [])
    (j k : Nat) (hj : j < 2 ^ vars.length) (hk : k < 2 ^ vars.length) :
    evaluate (synthesize_for_model (model_of_mask vars j)) (model_of_mask vars k) =
      some (decide (j = k)) := by
  rw [evaluate_synthesize_for_model (model_of_mask vars j) (model_of_mask vars k)
    (by rw [modelOfMask_keys]; exact hne)
    (by
      rw [modelOfMask_keys]
      intro v hv
      exact alookup_isSome_of_mem _ v (by rw [modelOfMask_keys]; exact hv))]
  rw [modelOfMask_keys]
  rw [all_match_eq_decide vars hnd hne j k hj hk]

theorem clause_except_eval_mask (vars : List Str) (hnd : vars.Nodup) (hne : vars ≠ [])
    (j k : Nat) (hj : j < 2 ^ vars.length) (hk : k < 2 ^ vars.length) :
    evaluate (synthesize_for_all_except_model (model_of_mask vars j))
        (model_of_mask vars k) =
      some (!(decide (j = k))) := by
  rw [evaluate_synthesize_for_all_except (model_of_mask vars j) (model_of_mask vars k)
    (by rw [modelOfMask_keys]; exact hne)
    (by
      rw [modelOfMask_keys]
      intro v hv
      exact alookup_isSome_of_mem _ v (by rw [modelOfMask_keys]; exact hv))]
  rw [modelOfMask_keys]
  rw [all_match_eq_decide vars hnd hne j k hj hk]



theorem zip_map_filter_pos {β : Type} (f : Nat → β) :
    ∀ (l : List Nat) (vs : List Bool),
    (((l.map f).zip vs).filter (fun mv => mv.2)).map (fun mv => mv.1) =
      (((l.zip vs).filter (fun iv => iv.2)).map (fun iv => iv.1)).map f := by
  intro l
  induction l with
  | nil => intro vs; rfl
  | cons x xs ih =>
    intro vs
    cases vs with
    | nil => rfl
    | cons b bs =>
      by_cases hb : b = true <;>
        simp [List.filter_cons, hb, ih bs]

theorem zip_map_filter_neg {β : Type} (f : Nat → β) :
    ∀ (l : List Nat) (vs : List Bool),
    (((l.map f).zip vs).filter (fun mv => !mv.2)).map (fun mv => mv.1) =
      (((l.zip vs).filter (fun iv => !iv.2)).map (fun iv => iv.1)).map f := by
  intro l
  induction l with
  | nil => intro vs; rfl
  | cons x xs ih =>
    intro vs
    cases vs with
    | nil => rfl
    | cons b bs =>
      by_cases hb : b = true <;>
        simp [List.filter_cons, hb, ih bs]

theorem mem_zip_range (N : Nat) (values : List Bool) (i : Nat) (b : Bool) :
    ((i, b) ∈ (List.range N).zip values) ↔
      ∃ _ : i < N, ∃ hv : i < values.length, values.get ⟨i, hv⟩ = b := by
  constructor
  · intro h
    obtain ⟨idx, heq⟩ := List.mem_iff_get.mp h
    rw [List.get_eq_getElem, List.getElem_zip] at heq
    have hidx := idx.2
    simp only [List.length_zip, List.length_range, lt_min_iff] at hidx
    have h1 : (List.range N)[idx.1] = i := congrArg Prod.fst heq
    rw [List.getElem_range] at h1
    subst h1
    refine ⟨hidx.1, hidx.2, ?_⟩
    have h2 := congrArg Prod.snd heq
    simpa using h2
  · rintro ⟨hN, hv, rfl⟩
    apply List.mem_iff_get.mpr
    refine ⟨⟨i, by simp [List.length_zip]; omega⟩, ?_⟩
    rw [List.get_eq_getElem, List.getElem_zip]
    rw [Prod.mk.injEq]
    constructor
    · rw [List.getElem_range]
    · rfl

theorem mem_mask_filter (N : Nat) (values : List Bool) (q : Nat × Bool → Bool)
    (k : Nat) (hkv : k < values.length) (hk : k < N) :
    (k ∈ (((List.range N).zip values).filter q).map (fun iv => iv.1)) ↔
      q (k, values.get ⟨k, hkv⟩) = true := by
  simp only [List.mem_map, List.mem_filter]
  constructor
  · rintro ⟨⟨i, b⟩, ⟨hmem, hq⟩, hik⟩
    simp only at hik
    subst hik
    obtain ⟨_, hv, hvb⟩ := (mem_zip_range N values i b).mp hmem
    have hvb2 : values.get ⟨i, hkv⟩ = b := hvb
    rw [hvb2]
    exact hq
  · intro hq
    refine ⟨(k, values.get ⟨k, hkv⟩), ⟨?_, hq⟩, rfl⟩
    exact (mem_zip_range N values k _).mpr ⟨hk, hkv, rfl⟩

theorem mask_filter_lt (N : Nat) (values : List Bool) (q : Nat × Bool → Bool)
    (j : Nat)
    (hj : j ∈ (((List.range N).zip values).filter q).map (fun iv => iv.1)) :
    j < N := by
  simp only [List.mem_map, List.mem_filter] at hj
  obtain ⟨⟨i, b⟩, ⟨hmem, _⟩, hik⟩ := hj
  simp only at hik
  subst hik
  have := (List.of_mem_zip hmem).1
  simpa using this

theorem any_decide_eq_mem (l : List Nat) (k : Nat) :
    l.any (fun j => decide (j = k)) = decide (k ∈ l) := by
  induction l with
  | nil => simp
  | cons x xs ih =>
    simp only [List.any_cons, ih, List.mem_cons]
    by_cases hx : x = k
    · subst hx
      simp
    · rw [decide_eq_false hx, Bool.false_or]
      exact decide_eq_decide.mpr
        ⟨fun h => .inr h, fun h => h.resolve_left (fun he => hx he.symm)⟩



theorem all_not_eq_not_any (p : α → Bool) (l : List α) :
    l.all (fun x => !(p x)) = !(l.any p) := by
  induction l with
  | nil => rfl
  | cons x xs ih => simp [List.all_cons, List.any_cons, ih, Bool.not_or]

theorem evaluate_synthesize_mask (vars : List Str) (values : List Bool)
    (hnd : vars.Nodup) (hne : vars ≠ [])
    (k : Nat) (hk : k < 2 ^ vars.length) (hkv : k < values.length) :
    evaluate (synthesize vars values) (model_of_mask vars k) =
      some (values.get ⟨k, hkv⟩) := by
  have hmem := mem_mask_filter (2 ^ vars.length) values (fun iv => iv.2) k hkv hk
  simp only [synthesize, all_models]
  rw [zip_map_filter_pos (model_of_mask vars) (List.range (2 ^ vars.length)) values]
  cases hTM : (((List.range (2 ^ vars.length)).zip values).filter
      (fun iv => iv.2)).map (fun iv => iv.1) with
  | nil =>
    simp only [List.map_nil]
    obtain ⟨v0, vrest, rfl⟩ : ∃ v0 vrest, vars = v0 :: vrest := by
      cases vars with
      | nil => exact absurd rfl hne
      | cons a l => exact ⟨a, l, rfl⟩
    have hget : values.get ⟨k, hkv⟩ = false := by
      rcases hb : values.get ⟨k, hkv⟩ with _ | _
      · rfl
      · exfalso
        have hkm : k ∈ ((((List.range (2 ^ (v0 :: vrest).length)).zip values).filter
            (fun iv => iv.2)).map (fun iv => iv.1)) := hmem.mpr hb
        rw [hTM] at hkm
        simp at hkm
    obtain ⟨b, hb⟩ := alookup_isSome_of_mem (model_of_mask (v0 :: vrest) k) v0
      (by rw [modelOfMask_keys]; simp)
    rw [hget]
    show evaluate (.bin .conj (.var v0) (.neg (.var v0)))
      (model_of_mask (v0 :: vrest) k) = some false
    simp [evaluate, hb, binFun]
  | cons j0 js =>
    simp only [List.map_cons]
    show evaluate ((js.map (model_of_mask vars)).foldl
        (fun dnf m => .bin .disj dnf (synthesize_for_model m))
        (synthesize_for_model (model_of_mask vars j0))) (model_of_mask vars k) =
      some (values.get ⟨k, hkv⟩)
    rw [List.foldl_map]
    have hjs : ∀ j ∈ j0 :: js, j < 2 ^ vars.length := by
      intro j hj
      apply mask_filter_lt (2 ^ vars.length) values (fun iv => iv.2) j
      rw [hTM]
      exact hj
    have hval : ∀ j ∈ j0 :: js,
        evaluate (synthesize_for_model (model_of_mask vars j)) (model_of_mask vars k) =
          some (decide (j = k)) :=
      fun j hj => clause_eval_mask vars hnd hne j k (hjs j hj) hk
    have hfold := evaluate_foldl_bin .disj
      (fun j => synthesize_for_model (model_of_mask vars j))
      (fun j => decide (j = k)) (model_of_mask vars k) js
      (fun x hx => hval x (by simp [hx]))
      (synthesize_for_model (model_of_mask vars j0))
      (decide (j0 = k)) (hval j0 (by simp))
    rw [hfold]
    simp only [binFun]
    rw [foldl_or_any]
    have hstep : (decide (j0 = k) || js.any fun j => decide (j = k)) =
        ((j0 :: js).any fun j => decide (j = k)) := by
      rw [List.any_cons]
    rw [hstep, any_decide_eq_mem]
    congr 1
    by_cases hm : k ∈ j0 :: js
    · rw [decide_eq_true hm]
      have h2 : values.get ⟨k, hkv⟩ = true := hmem.mp (by rw [hTM]; exact hm)
      exact h2.symm
    · rw [decide_eq_false hm]
      rcases hb : values.get ⟨k, hkv⟩ with _ | _
      · rfl
      · exfalso
        apply hm
        rw [← hTM]
        exact hmem.mpr hb

theorem evaluate_synthesize_cnf_mask (vars : List Str) (values : List Bool)
    (hnd : vars.Nodup) (hne : vars ≠ [])
    (k : Nat) (hk : k < 2 ^ vars.length) (hkv : k < values.length) :
    evaluate (synthesize_cnf vars values) (model_of_mask vars k) =
      some (values.get ⟨k, hkv⟩) := by
  have hmem := mem_mask_filter (2 ^ vars.length) values (fun iv => !iv.2) k hkv hk
  simp only [synthesize_cnf, all_models]
  rw [zip_map_filter_neg (model_of_mask vars) (List.range (2 ^ vars.length)) values]
  cases hTM : (((List.range (2 ^ vars.length)).zip values).filter
      (fun iv => !iv.2)).map (fun iv => iv.1) with
  | nil =>
    simp only [List.map_nil]
    obtain ⟨v0, vrest, rfl⟩ : ∃ v0 vrest, vars = v0 :: vrest := by
      cases vars with
      | nil => exact absurd rfl hne
      | cons a l => exact ⟨a, l, rfl⟩
    have hget : values.get ⟨k, hkv⟩ = true := by
      rcases hb : values.get ⟨k, hkv⟩ with _ | _
      · exfalso
        have hkm : k ∈ ((((List.range (2 ^ (v0 :: vrest).length)).zip values).filter
            (fun iv => !iv.2)).map (fun iv => iv.1)) := hmem.mpr (by rw [hb]; rfl)
        rw [hTM] at hkm
        simp at hkm
      · rfl
    obtain ⟨b, hb⟩ := alookup_isSome_of_mem (model_of_mask (v0 :: vrest) k) v0
      (by rw [modelOfMask_keys]; simp)
    rw [hget]
    show evaluate (.bin .disj (.var v0) (.neg (.var v0)))
      (model_of_mask (v0 :: vrest) k) = some true
    simp [evaluate, hb, binFun]
  | cons j0 js =>
    simp only [List.map_cons]
    show evaluate ((js.map (model_of_mask vars)).foldl
        (fun cnf m => .bin .conj cnf (synthesize_for_all_except_model m))
        (synthesize_for_all_except_model (model_of_mask vars j0))) (model_of_mask vars k) =
      some (values.get ⟨k, hkv⟩)
    rw [List.foldl_map]
    have hjs : ∀ j ∈ j0 :: js, j < 2 ^ vars.length := by
      intro j hj
      apply mask_filter_lt (2 ^ vars.length) values (fun iv => !iv.2) j
      rw [hTM]
      exact hj
    have hval : ∀ j ∈ j0 :: js,
        evaluate (synthesize_for_all_except_model (model_of_mask vars j))
            (model_of_mask vars k) = some (!(decide (j = k))) :=
      fun j hj => clause_except_eval_mask vars hnd hne j k (hjs j hj) hk
    have hfold := evaluate_foldl_bin .conj
      (fun j => synthesize_for_all_except_model (model_of_mask vars j))
      (fun j => !(decide (j = k))) (model_of_mask vars k) js
      (fun x hx => hval x (by simp [hx]))
      (synthesize_for_all_except_model (model_of_mask vars j0))
      (!(decide (j0 = k))) (hval j0 (by simp))
    rw [hfold]
    simp only [binFun]
    rw [foldl_and_all]
    have hstep : ((!decide (j0 = k)) && js.all fun j => !decide (j = k)) =
        ((j0 :: js).all fun j => !decide (j = k)) := by
      rw [List.all_cons]
    rw [hstep, all_not_eq_not_any, any_decide_eq_mem]
    congr 1
    by_cases hm : k ∈ j0 :: js
    · rw [decide_eq_true hm]
      have h2 : (!(values.get ⟨k, hkv⟩)) = true := hmem.mp (by rw [hTM]; exact hm)
      rcases hb : values.get ⟨k, hkv⟩ with _ | _
      · rfl
      · rw [hb] at h2; simp at h2
    · rw [decide_eq_false hm]
      rcases hb : values.get ⟨k, hkv⟩ with _ | _
      · exfalso
        apply hm
        rw [← hTM]
        exact hmem.mpr (by rw [hb]; rfl)
      · rfl



/-- C4: for a nonempty list of distinct variable names and a value vector of
length 2 to the n, the formulas returned by `synthesize` (DNF) and
`synthesize_cnf` (CNF) have exactly the given truth table over `all_models`
of those names in order; the all-false vector yields the contradiction
v AND NOT v over the first variable, and the all-true vector yields the
tautology v OR NOT v. -/
theorem c4_synthesize_truth_table (vars : List Str) (values : List Bool)
    (hne : vars ≠ []) (hnd : vars.Nodup)
    (hvalid : ∀ v ∈ vars, is_variable v = true)
    (hlen : values.length = 2 ^ vars.length) :
    truth_values (synthesize vars values) (all_models vars) = values.map some ∧
    truth_values (synthesize_cnf vars values) (all_models vars) = values.map some ∧
    (values.all (fun b => !b) = true → ∃ v0 vrest, vars = v0 :: vrest ∧
      synthesize vars values = .bin .conj (.var v0) (.neg (.var v0))) ∧
    (values.all (fun b => b) = true → ∃ v0 vrest, vars = v0 :: vrest ∧
      synthesize_cnf vars values = .bin .disj (.var v0) (.neg (.var v0))) := by
  refine ⟨?_, ?_, ?_, ?_⟩
  · apply List.ext_getElem?
    intro k
    simp only [truth_values, all_models, List.getElem?_map]
    by_cases hk : k < 2 ^ vars.length
    · have hkv : k < values.length := by omega
      rw [List.getElem?_eq_getElem (by simpa using hk)]
      rw [List.getElem_range]
      rw [List.getElem?_eq_getElem hkv]
      simp [evaluate_synthesize_mask vars values hnd hne k hk hkv]
    · rw [List.getElem?_eq_none
        (show (List.range (2 ^ vars.length)).length ≤ k by simp; omega)]
      rw [List.getElem?_eq_none (show values.length ≤ k by omega)]
      rfl
  · apply List.ext_getElem?
    intro k
    simp only [truth_values, all_models, List.getElem?_map]
    by_cases hk : k < 2 ^ vars.length
    · have hkv : k < values.length := by omega
      rw [List.getElem?_eq_getElem (by simpa using hk)]
      rw [List.getElem_range]
      rw [List.getElem?_eq_getElem hkv]
      simp [evaluate_synthesize_cnf_mask vars values hnd hne k hk hkv]
    · rw [List.getElem?_eq_none
        (show (List.range (2 ^ vars.length)).length ≤ k by simp; omega)]
      rw [List.getElem?_eq_none (show values.length ≤ k by omega)]
      rfl
  · intro hall
    obtain ⟨v0, vrest, rfl⟩ : ∃ v0 vrest, vars = v0 :: vrest := by
      cases vars with
      | nil => exact absurd rfl hne
      | cons a l => exact ⟨a, l, rfl⟩
    refine ⟨v0, vrest, rfl, ?_⟩
    simp only [synthesize, all_models]
    have hfilter : ((((List.range (2 ^ (v0 :: vrest).length)).map
        (model_of_mask (v0 :: vrest))).zip values).filter (fun mv => mv.2)) = [] := by
      rw [List.filter_eq_nil_iff]
      intro mv hmv
      have hb := (List.of_mem_zip hmv).2
      have h2 := List.all_eq_true.mp hall _ hb
      simp only [Bool.not_eq_true'] at h2
      simp [h2]
    rw [hfilter]
    rfl
  · intro hall
    obtain ⟨v0, vrest, rfl⟩ : ∃ v0 vrest, vars = v0 :: vrest := by
      cases vars with
      | nil => exact absurd rfl hne
      | cons a l => exact ⟨a, l, rfl⟩
    refine ⟨v0, vrest, rfl, ?_⟩
    simp only [synthesize_cnf, all_models]
    have hfilter : ((((List.range (2 ^ (v0 :: vrest).length)).map
        (model_of_mask (v0 :: vrest))).zip values).filter (fun mv => !mv.2)) = [] := by
      rw [List.filter_eq_nil_iff]
      intro mv hmv
      have hb := (List.of_mem_zip hmv).2
      have h2 := List.all_eq_true.mp hall _ hb
      simp [h2]
    rw [hfilter]
    rfl

theorem c4_witness :
    truth_values (synthesize [['p'], ['q']] [true, true, true, false])
        (all_models [['p'], ['q']]) = [true, true, true, false].map some :=
  (c4_synthesize_truth_table [['p'], ['q']] [true, true, true, false]
    (by decide) (by decide) (by decide) (by decide)).1

end PropCalc
